import Mathlib

/-!
# Verification of `solver.py` (wackywendell/sudokusolver)

A shallow embedding of the sudoku solver in `src/solver.py`.  The grid is the
`row_values` list of lists of the Python `Sudoku` class; machine integers are
`Nat`; Python exceptions are modelled with `Except PyErr`; the `Invalid`
exception is `PyErr.invalid`, a failing `assert` is `PyErr.assertError`, and a
Python `TypeError` (which `dynamic_solve` can in fact raise, see below) is
`PyErr.typeError`.  The unbounded recursion of `dynamic_solve` is modelled
with a fuel parameter; fuel `(81 - fillcount g) + 1` is shown to be enough
(theorem for claim C9), so any larger fuel gives the Python semantics.
-/

/-- Python exceptions that the solver can raise:
`Invalid` (declared in solver.py), `AssertionError` (from `assert`
statements), and `TypeError` (from comparing an `int` with a `set`,
and from unpacking `None`). -/
inductive PyErr where
  | invalid
  | assertError
  | typeError
deriving DecidableEq, Repr

deriving instance DecidableEq for Except

/-- `Sudoku.row_values`: a list of rows, each a list of cell values,
0 = empty, 1-9 = filled.  The `Sudoku.__init__` assertions (9 rows of 9
values, each in `0..9`) are carried separately as the predicate `WF`. -/
abbrev Grid := List (List ℕ)

/-- The shape/range invariant asserted by `Sudoku.__init__`
(and re-asserted by `Sudoku.is_valid`): 9 rows, 9 columns, values 0-9. -/
def WF (g : Grid) : Prop :=
  List.length g = 9 ∧ ∀ r ∈ g, r.length = 9 ∧ ∀ v ∈ r, v ≤ 9

instance : DecidablePred WF := fun g => by unfold WF; infer_instance

/-- `self.row_values[i-1][j-1]` with the source's 1-based indices
(`Sudoku.__getitem__`). -/
def cell (g : Grid) (i j : ℕ) : ℕ :=
  (g.getD (i - 1) []).getD (j - 1) 0

/-- The raw in-place write `self.row_values[i-1][j-1] = value`. -/
def setCell (g : Grid) (i j v : ℕ) : Grid :=
  g.set (i - 1) ((g.getD (i - 1) []).set (j - 1) v)

/-- `Sudoku.__setitem__`: asserts the target cell is 0 before writing
(the write-once discipline at grid level). -/
def sudokuSet (g : Grid) (i j v : ℕ) : Except PyErr Grid :=
  if cell g i j = 0 then .ok (setCell g i j v) else .error .assertError

/-- The three `SubArray` subclasses `Row`, `Column`, `Square`,
each carrying its constructor index. -/
inductive SA where
  | row (r : ℕ)
  | col (c : ℕ)
  | sq (q : ℕ)
deriving DecidableEq, Repr

/-- `matrix_indices`: the local index 1-9 of a unit view mapped to grid
coordinates.  `Row(r)`: `ix ↦ (r, ix)`; `Column(c)`: `ix ↦ (ix, c)`;
`Square(q)`: `divmod` arithmetic exactly as in the source. -/
def matrixIndices (sa : SA) (ix : ℕ) : ℕ × ℕ :=
  match sa with
  | .row r => (r, ix)
  | .col c => (ix, c)
  | .sq q =>
    let ii := (q - 1) / 3
    let ij := (q - 1) % 3
    let ji := (ix - 1) / 3
    let jj := (ix - 1) % 3
    (ii * 3 + ji + 1, ij * 3 + jj + 1)

/-- `SubArray.__getitem__`. -/
def subGet (g : Grid) (sa : SA) (ix : ℕ) : ℕ :=
  cell g (matrixIndices sa ix).1 (matrixIndices sa ix).2

/-- `SubArray.__setitem__`: note this writes UNCONDITIONALLY - unlike
`Sudoku.__setitem__` it has no `assert` that the cell is empty. -/
def subSet (g : Grid) (sa : SA) (ix v : ℕ) : Grid :=
  setCell g (matrixIndices sa ix).1 (matrixIndices sa ix).2 v

/-- The 9 values of a unit view, in index order (`SubArray.__iter__`). -/
def subVals (g : Grid) (sa : SA) : List ℕ :=
  (List.range' 1 9).map (subGet g sa)

/-- The box number of cell `(i,j)`: `((i-1)//3)*3 + ((j-1)//3) + 1`
(`Sudoku.subarrays`). -/
def boxOf (i j : ℕ) : ℕ :=
  ((i - 1) / 3) * 3 + (j - 1) / 3 + 1

/-- The candidate set of a cell:
`set(range(1,10)) - set(row) - set(col) - set(sq)` where the three units
come from `Sudoku.subarrays(i, j)`.  A Python set of small ints iterates
in ascending order, so the sorted list of candidates is this filter of
the ascending range (`sorted(...)` in `dynamic_solve` is the identity
on it). -/
def cands (g : Grid) (i j : ℕ) : List ℕ :=
  let rv := subVals g (.row i)
  let cv := subVals g (.col j)
  let sv := subVals g (.sq (boxOf i j))
  (List.range' 1 9).filter (fun v =>
    decide (v ∉ rv) && decide (v ∉ cv) && decide (v ∉ sv))

/-- `Sudoku.fillcount`: the number of non-zero cells. -/
def fillcount (g : Grid) : ℕ :=
  (g.map (fun r => r.countP (fun v => decide (0 < v)))).sum

/-- `SubArray.is_valid`: walk the 9 values keeping a `seen` set; a repeated
non-zero value makes the unit invalid. -/
def unitValid : List ℕ → List ℕ → Bool
  | _, [] => true
  | seen, v :: vs =>
    if v = 0 then unitValid seen vs
    else if v ∈ seen then false
    else unitValid (v :: seen) vs

/-- The pure boolean part of `Sudoku.is_valid`: all 9 rows, 9 columns and
9 squares are individually valid. -/
def validB (g : Grid) : Bool :=
  ((List.range' 1 9).all (fun i => unitValid [] (subVals g (.row i)))) &&
  ((List.range' 1 9).all (fun j => unitValid [] (subVals g (.col j)))) &&
  ((List.range' 1 9).all (fun q => unitValid [] (subVals g (.sq q))))

/-- `Sudoku.is_valid`: first asserts the 9x9 shape and the 0-9 value range
(an `AssertionError` on malformed grids), then checks the 27 units. -/
def isValidE (g : Grid) : Except PyErr Bool :=
  if WF g then .ok (validB g) else .error .assertError

/-- State threaded through the first loop of `Solver.fill_subarray`:
the (mutated) grid, the `filled` counter, the `seen` set (only membership
is ever queried, so a plain list suffices), and the `all_possibilities`
dict in insertion order (keys are the local indices 1-9, ascending). -/
structure P1 where
  g : Grid
  filled : ℕ
  seen : List ℕ
  defs : List (ℕ × List ℕ)
deriving DecidableEq, Repr

/-- First loop of `fill_subarray` (`for ix in range(1, 10)`): record seen
values, compute fresh candidate sets for empty cells, raise `Invalid` on an
empty candidate set, place naked singles through `Sudoku.__setitem__`
(which asserts the cell is empty), defer larger sets. -/
def pass1 (sa : SA) : List ℕ → P1 → Except PyErr P1
  | [], st => .ok st
  | ix :: ixs, st =>
    let v := subGet st.g sa ix
    if 0 < v then pass1 sa ixs { st with seen := v :: st.seen }
    else
      let i := (matrixIndices sa ix).1
      let j := (matrixIndices sa ix).2
      let poss := cands st.g i j
      if poss.length = 0 then .error .invalid
      else if poss.length = 1 then
        match sudokuSet st.g i j poss.headI with
        | .error e => .error e
        | .ok g' =>
          pass1 sa ixs ⟨g', st.filled + 1, poss.headI :: st.seen, st.defs⟩
      else pass1 sa ixs { st with defs := st.defs ++ [(ix, poss)] }

/-- `[ix for (ix, p) in all_possibilities.items() if v in p]`. -/
def homes (v : ℕ) (defs : List (ℕ × List ℕ)) : List ℕ :=
  (defs.filter (fun e => decide (v ∈ e.2))).map (·.1)

/-- Second loop of `fill_subarray` (`for v in range(1, 10)`): for each value
not seen, the deferred indices whose CAPTURED candidate set contains it;
zero of them raises `Invalid`, exactly one places the value through
`SubArray.__setitem__` (the raw, unchecked write). -/
def pass2 (sa : SA) : List ℕ → P1 → Except PyErr (Grid × ℕ)
  | [], st => .ok (st.g, st.filled)
  | v :: vs, st =>
    if v ∈ st.seen then pass2 sa vs st
    else
      match homes v st.defs with
      | [] => .error .invalid
      | [ix] => pass2 sa vs { st with g := subSet st.g sa ix v, filled := st.filled + 1 }
      | _ => pass2 sa vs st

/-- `Solver.fill_subarray`: both loops; on success returns the new grid and
the final `filled` counter. -/
def fillSubarray (sa : SA) (g : Grid) : Except PyErr (Grid × ℕ) :=
  match pass1 sa (List.range' 1 9) ⟨g, 0, [], []⟩ with
  | .error e => .error e
  | .ok st => pass2 sa (List.range' 1 9) st

/-- The 27 units in the order `single_pass` visits them:
all 9 rows, then all 9 columns, then all 9 squares. -/
def unitList : List SA :=
  ((List.range' 1 9).map SA.row) ++ ((List.range' 1 9).map SA.col) ++
  ((List.range' 1 9).map SA.sq)

/-- The loop body of `Solver.single_pass`: fold `fill_subarray` over a list
of units, accumulating the `filled` total and propagating exceptions. -/
def foldUnits : List SA → Grid → ℕ → Except PyErr (Grid × ℕ)
  | [], g, acc => .ok (g, acc)
  | sa :: sas, g, acc =>
    match fillSubarray sa g with
    | .error e => .error e
    | .ok (g', n) => foldUnits sas g' (acc + n)

/-- `Solver.single_pass`. -/
def singlePass (g : Grid) : Except PyErr (Grid × ℕ) :=
  foldUnits unitList g 0

/-- The `while True` loop of `Solver.simple_fill`, with fuel.  Each round
that continues strictly increases `fillcount` (bounded by 81), so 82 rounds
always suffice for a well-formed grid and the fuel-exhaustion branch is
never reached from one. -/
def simpleFillAux : ℕ → Grid → ℕ → Except PyErr (Grid × ℕ)
  | 0, _, _ => .error .invalid
  | fuel + 1, g, acc =>
    match singlePass g with
    | .error e => .error e
    | .ok (g', n) => if n = 0 then .ok (g', acc) else simpleFillAux fuel g' (acc + n)

/-- `Solver.simple_fill`: iterate `single_pass` to fixpoint, returning the
grid at fixpoint and the total number of cells filled. -/
def simpleFill (g : Grid) : Except PyErr (Grid × ℕ) :=
  simpleFillAux 82 g 0

/-- All 81 coordinates in the row-major order of the generator expression
`((i, j) for i in range(1, 10) for j in range(1, 10))`. -/
def rowMajor : List (ℕ × ℕ) :=
  (List.range' 1 9).flatMap (fun i => (List.range' 1 9).map (fun j => (i, j)))

/-- The branch-cell scan of `dynamic_solve` (lines 237-252): skip filled
cells; an empty candidate set raises `Invalid`; `assert len > 1` fails on a
singleton; a pair is selected immediately (`break`), returned as `.inl`;
larger sets are accumulated into `all_possibilities`, returned as `.inr`
when the scan runs out. -/
def scan (g : Grid) : List (ℕ × ℕ) → List ((ℕ × ℕ) × List ℕ) →
    Except PyErr (((ℕ × ℕ) × List ℕ) ⊕ List ((ℕ × ℕ) × List ℕ))
  | [], acc => .ok (.inr acc)
  | (i, j) :: rest, acc =>
    if 0 < cell g i j then scan g rest acc
    else
      let poss := cands g i j
      if poss.length = 0 then .error .invalid
      else if poss.length = 1 then .error .assertError
      else if poss.length = 2 then .ok (.inl ((i, j), poss))
      else scan g rest (acc ++ [((i, j), poss)])

/-- The minimum-size selection loop of `dynamic_solve` (lines 254-258).
`expand_ixs` starts as `None`; the first entry is taken because
`not expand_ixs` short-circuits the comparison; on every LATER entry Python
evaluates `len(expand_possibilities) > p`, comparing an `int` with a `set`,
which raises `TypeError`.  The final `i, j = expand_ixs` raises `TypeError`
when `expand_ixs` is still `None` (unpacking `None`). -/
def selectMinAux : Option ((ℕ × ℕ) × List ℕ) → List ((ℕ × ℕ) × List ℕ) →
    Except PyErr (Option ((ℕ × ℕ) × List ℕ))
  | acc, [] => .ok acc
  | none, e :: rest => selectMinAux (some e) rest
  | some _, _ :: _ => .error .typeError

/-- Lines 254-260 of the source: run the selection loop from `None`, then
unpack `i, j = expand_ixs`. -/
def selectMin (all : List ((ℕ × ℕ) × List ℕ)) : Except PyErr ((ℕ × ℕ) × List ℕ) :=
  match selectMinAux none all with
  | .error e => .error e
  | .ok none => .error .typeError
  | .ok (some e) => .ok e

/-- The candidate loop of `dynamic_solve` (lines 261-273): for each value of
the branch cell in ascending order, clone the grid, place the value through
`Sudoku.__setitem__`, recurse; `Invalid` from the recursive call is caught
and the candidate skipped; any other exception propagates; solution sets
are accumulated by set union. -/
def branchLoop (rec : Grid → Except PyErr (Finset Grid)) (g : Grid) (i j : ℕ) :
    List ℕ → Finset Grid → Except PyErr (Finset Grid)
  | [], acc => .ok acc
  | p :: ps, acc =>
    match sudokuSet g i j p with
    | .error e => .error e
    | .ok g₂ =>
      match rec g₂ with
      | .error .invalid => branchLoop rec g i j ps acc
      | .error e => .error e
      | .ok s => branchLoop rec g i j ps (acc ∪ s)

/-- `Solver.dynamic_solve`, with fuel for the recursion (see the header
comment; `(81 - fillcount g) + 1` is always enough).  Propagate to
fixpoint, raise `Invalid` if the grid is invalid, return the singleton set
when solved, otherwise pick the branch cell (short-circuit on a pair during
the scan, else the faulty minimum-selection loop) and try its candidates. -/
def dynamicSolve : ℕ → Grid → Except PyErr (Finset Grid)
  | 0, _ => .error .invalid
  | fuel + 1, g =>
    match simpleFill g with
    | .error e => .error e
    | .ok (g₁, _) =>
      match isValidE g₁ with
      | .error e => .error e
      | .ok false => .error .invalid
      | .ok true =>
        if 81 ≤ fillcount g₁ then .ok {g₁}
        else
          match scan g₁ rowMajor [] with
          | .error e => .error e
          | .ok (.inl (ij, poss)) => branchLoop (dynamicSolve fuel) g₁ ij.1 ij.2 poss ∅
          | .ok (.inr all) =>
            match selectMin all with
            | .error e => .error e
            | .ok (ij, poss) => branchLoop (dynamicSolve fuel) g₁ ij.1 ij.2 poss ∅

/-- The characters `'0- '` that `Sudoku.from_strs` reads as an empty cell. -/
def zeroChars : List Char := ['0', '-', ' ']

/-- The digit characters `'123456789'`. -/
def digitChars : List Char := ['1', '2', '3', '4', '5', '6', '7', '8', '9']

/-- One line of `Sudoku.from_strs`: keep only recognized characters, map
them to values, and require exactly 9 of them. -/
def parseLine (l : List Char) : Option (List ℕ) :=
  let vals := (l.filter (fun c => c ∈ zeroChars ++ digitChars)).map
    (fun c => if c ∈ zeroChars then 0 else c.toNat - 48)
  if vals.length = 9 then some vals else none

/-- `Sudoku.from_strs`: parse every line, then require exactly 9 rows.
The two `raise Exception(...)` branches are modelled as `none`. -/
def fromStrs (ls : List (List Char)) : Option Grid := do
  let rows ← ls.mapM parseLine
  if rows.length = 9 then some rows else none

/-- One rendered cell of `SubArray.__str__`: `str(v if v else ' ')`. -/
def renderCell (v : ℕ) : Char :=
  if v = 0 then ' ' else Char.ofNat (48 + v)

/-- `Sudoku.__str__` as its list of lines: row `i` is the 9 characters of
`str(Row(self, i))`.  (`__str__` joins these lines with newlines and the
CLI reader splits them back; no rendered character is a newline, so
modelling at the line level is exact.) -/
def render (g : Grid) : List (List Char) :=
  (List.range' 1 9).map (fun i => (List.range' 1 9).map (fun j => renderCell (cell g i j)))

/-- The unit indices actually constructed by `Sudoku.rows/columns/squares`
and `Sudoku.subarrays` all lie in `1..9`. -/
def SAok (sa : SA) : Prop :=
  match sa with
  | .row r => 1 ≤ r ∧ r ≤ 9
  | .col c => 1 ≤ c ∧ c ≤ 9
  | .sq q => 1 ≤ q ∧ q ≤ 9

instance : DecidablePred SAok := fun sa => by
  cases sa <;> (unfold SAok; infer_instance)

/-- `g'` agrees with `g` on every in-range cell that is non-zero in `g`:
the solver never changes a given. -/
def ExtendsNZ (g g' : Grid) : Prop :=
  ∀ i j, 1 ≤ i → i ≤ 9 → 1 ≤ j → j ≤ 9 → cell g i j ≠ 0 → cell g' i j = cell g i j

/-- `s` is a valid completion of the puzzle `g`: well-formed, preserving
every given of `g`, completely filled, and valid. -/
def Completion (g s : Grid) : Prop :=
  WF s ∧ ExtendsNZ g s ∧ fillcount s = 81 ∧ isValidE s = .ok true

/-- A completely filled, valid grid (each row is the previous one shifted
by three, rows 4 and 7 shifted by one). -/
def fullGrid : Grid :=
  [[1,2,3,4,5,6,7,8,9],
   [4,5,6,7,8,9,1,2,3],
   [7,8,9,1,2,3,4,5,6],
   [2,3,4,5,6,7,8,9,1],
   [5,6,7,8,9,1,2,3,4],
   [8,9,1,2,3,4,5,6,7],
   [3,4,5,6,7,8,9,1,2],
   [6,7,8,9,1,2,3,4,5],
   [9,1,2,3,4,5,6,7,8]]

/-- `fullGrid` with its first three rows erased.  Propagation fills
nothing (every empty cell has exactly 3 candidates and every missing value
has 3 possible homes in each of its units), so this is a propagation
fixpoint with no pair cell: `dynamic_solve` must enter the
minimum-selection loop on it. -/
def band3Grid : Grid :=
  [[0,0,0,0,0,0,0,0,0],
   [0,0,0,0,0,0,0,0,0],
   [0,0,0,0,0,0,0,0,0],
   [2,3,4,5,6,7,8,9,1],
   [5,6,7,8,9,1,2,3,4],
   [8,9,1,2,3,4,5,6,7],
   [3,4,5,6,7,8,9,1,2],
   [6,7,8,9,1,2,3,4,5],
   [9,1,2,3,4,5,6,7,8]]

/-- `fullGrid` with cell (1,1) changed from 1 to 2: completely filled but
invalid (two 2s in row 1 and in column 1), hence without any valid
completion.  `fill_subarray` on its first row raises `Invalid` (the value
1 is unseen and has no deferred home). -/
def invalidFullGrid : Grid :=
  [[2,2,3,4,5,6,7,8,9],
   [4,5,6,7,8,9,1,2,3],
   [7,8,9,1,2,3,4,5,6],
   [2,3,4,5,6,7,8,9,1],
   [5,6,7,8,9,1,2,3,4],
   [8,9,1,2,3,4,5,6,7],
   [3,4,5,6,7,8,9,1,2],
   [6,7,8,9,1,2,3,4,5],
   [9,1,2,3,4,5,6,7,8]]

/-- A grid on which `fill_subarray` over row 1 places TWO values into the
SAME cell: the captured candidate sets are `(1,6) ↦ {6,7,8,9}` and
`(1,7),(1,8),(1,9) ↦ {8,9}`, so both 6 and 7 have cell (1,6) as their only
home; the hidden-single loop writes 6 there and then overwrites it with 7,
counting 2 fills. -/
def c4Grid : Grid :=
  [[1,2,3,4,5,0,0,0,0],
   [0,0,0,0,0,0,6,7,0],
   [0,0,0,0,0,0,0,0,0],
   [0,0,0,0,0,0,0,0,0],
   [0,0,0,0,0,0,0,0,0],
   [0,0,0,0,0,0,0,0,0],
   [0,0,0,0,0,0,0,0,0],
   [0,0,0,0,0,0,0,0,0],
   [0,0,0,0,0,0,0,0,0]]

/-- The grid `fill_subarray (Row 1)` actually produces from `c4Grid`:
only cell (1,6) changed, ending at 7 (the placed 6 was overwritten). -/
def c4Grid' : Grid :=
  [[1,2,3,4,5,7,0,0,0],
   [0,0,0,0,0,0,6,7,0],
   [0,0,0,0,0,0,0,0,0],
   [0,0,0,0,0,0,0,0,0],
   [0,0,0,0,0,0,0,0,0],
   [0,0,0,0,0,0,0,0,0],
   [0,0,0,0,0,0,0,0,0],
   [0,0,0,0,0,0,0,0,0],
   [0,0,0,0,0,0,0,0,0]]

/-- A grid whose cell (1,1) is already occupied (by 5); used to exhibit
that `SubArray.__setitem__` silently overwrites it. -/
def g35 : Grid :=
  [[5,0,0,0,0,0,0,0,0],
   [0,0,0,0,0,0,0,0,0],
   [0,0,0,0,0,0,0,0,0],
   [0,0,0,0,0,0,0,0,0],
   [0,0,0,0,0,0,0,0,0],
   [0,0,0,0,0,0,0,0,0],
   [0,0,0,0,0,0,0,0,0],
   [0,0,0,0,0,0,0,0,0],
   [0,0,0,0,0,0,0,0,0]]

/-- What the branch-cell scan guarantees about every entry it selects or
accumulates: in-range coordinates, an empty cell, and the freshly computed
candidate list of that cell. -/
def ScanEntryOK (g : Grid) (e : (ℕ × ℕ) × List ℕ) : Prop :=
  1 ≤ e.1.1 ∧ e.1.1 ≤ 9 ∧ 1 ≤ e.1.2 ∧ e.1.2 ≤ 9 ∧
  cell g e.1.1 e.1.2 = 0 ∧ e.2 = cands g e.1.1 e.1.2

/-! ## List-level helper lemmas -/

theorem getD_set_ne {α : Type} (l : List α) (k k' : ℕ) (a d : α) (h : k ≠ k') :
    (l.set k a).getD k' d = l.getD k' d := by
  rw [List.getD_eq_getElem?_getD, List.getElem?_set_ne h, ← List.getD_eq_getElem?_getD]

theorem getD_set_self {α : Type} (l : List α) (k : ℕ) (a d : α) (h : k < l.length) :
    (l.set k a).getD k d = a := by
  rw [List.getD_eq_getElem?_getD, List.getElem?_set_self h, Option.getD_some]

theorem countP_set_le (p : ℕ → Bool) (l : List ℕ) (k a : ℕ) :
    (l.set k a).countP p ≤ l.countP p + 1 := by
  induction l generalizing k with
  | nil => simp
  | cons x xs ih =>
    cases k with
    | zero =>
      cases hpa : p a <;> cases hpx : p x <;>
        simp [List.countP_cons, hpa, hpx] <;> omega
    | succ k =>
      simp only [List.set_cons_succ, List.countP_cons]
      have := ih k
      omega

theorem le_countP_set (p : ℕ → Bool) (l : List ℕ) (k a : ℕ) (ha : p a = true) :
    l.countP p ≤ (l.set k a).countP p := by
  induction l generalizing k with
  | nil => simp
  | cons x xs ih =>
    cases k with
    | zero =>
      cases hpx : p x <;> simp [List.countP_cons, ha, hpx]
    | succ k =>
      simp only [List.set_cons_succ, List.countP_cons]
      have := ih k
      omega

theorem countP_set_of_zero (p : ℕ → Bool) (l : List ℕ) (k a : ℕ) (hk : k < l.length)
    (ha : p a = true) (hold : p (l.getD k 0) = false) :
    (l.set k a).countP p = l.countP p + 1 := by
  induction l generalizing k with
  | nil => simp at hk
  | cons x xs ih =>
    cases k with
    | zero =>
      simp only [List.getD_cons_zero] at hold
      simp [List.countP_cons, ha, hold]
    | succ k =>
      simp only [List.length_cons] at hk
      simp only [List.getD_cons_succ] at hold
      simp only [List.set_cons_succ, List.countP_cons]
      rw [ih k (by omega) hold]
      omega

theorem sum_map_set (f : List ℕ → ℕ) (l : List (List ℕ)) (k : ℕ) (a : List ℕ)
    (hk : k < l.length) :
    ((l.set k a).map f).sum + f (l.getD k []) = (l.map f).sum + f a := by
  induction l generalizing k with
  | nil => simp at hk
  | cons x xs ih =>
    cases k with
    | zero => simp [List.set_cons_zero]; omega
    | succ k =>
      simp only [List.length_cons] at hk
      simp only [List.set_cons_succ, List.map_cons, List.sum_cons, List.getD_cons_succ]
      have := ih k (by omega)
      omega

/-! ## cell / setCell lemmas -/

theorem setCell_out_of_range (g : Grid) (i j v : ℕ) (h : ¬ i - 1 < g.length) :
    setCell g i j v = g := by
  unfold setCell
  exact List.set_eq_of_length_le (by omega)

theorem cell_setCell_ne (g : Grid) (i j i' j' v : ℕ)
    (hi : 1 ≤ i) (hi' : 1 ≤ i') (hj : 1 ≤ j) (hj' : 1 ≤ j')
    (hne : i ≠ i' ∨ j ≠ j') :
    cell (setCell g i j v) i' j' = cell g i' j' := by
  unfold cell setCell
  rcases Nat.lt_or_ge (i - 1) g.length with hin | hout
  · by_cases hii : i - 1 = i' - 1
    · have hne' : j - 1 ≠ j' - 1 := by omega
      rw [hii, getD_set_self _ _ _ _ (hii ▸ hin), getD_set_ne _ _ _ _ _ hne']
    · rw [getD_set_ne _ _ _ _ _ hii]
  · rw [List.set_eq_of_length_le (by omega)]

theorem cell_setCell_self (g : Grid) (i j v : ℕ)
    (hg : List.length g = 9) (hrow : ∀ r ∈ g, r.length = 9)
    (hi1 : 1 ≤ i) (hi9 : i ≤ 9) (hj1 : 1 ≤ j) (hj9 : j ≤ 9) :
    cell (setCell g i j v) i j = v := by
  unfold cell setCell
  have hin : i - 1 < g.length := by omega
  rw [getD_set_self _ _ _ _ hin]
  have hr : (g.getD (i - 1) []).length = 9 := by
    rw [List.getD_eq_getElem?_getD, List.getElem?_eq_getElem hin]
    exact hrow _ (List.getElem_mem hin)
  rw [getD_set_self _ _ _ _ (by omega)]

/-! ## fillcount and WF lemmas -/

theorem getD_row_length (g : Grid) (k : ℕ) (hrow : ∀ r ∈ g, r.length = 9)
    (hk : k < g.length) : (g.getD k []).length = 9 := by
  rw [List.getD_eq_getElem g [] hk]
  exact hrow _ (List.getElem_mem hk)

theorem getD_row_mem (g : Grid) (k : ℕ) (hk : k < g.length) : g.getD k [] ∈ g := by
  rw [List.getD_eq_getElem g [] hk]
  exact List.getElem_mem hk

theorem fillcount_setCell_of_zero (g : Grid) (i j v : ℕ)
    (hg : List.length g = 9) (hrow : ∀ r ∈ g, r.length = 9)
    (hi1 : 1 ≤ i) (hi9 : i ≤ 9) (hj1 : 1 ≤ j) (hj9 : j ≤ 9)
    (hz : cell g i j = 0) (hv : 0 < v) :
    fillcount (setCell g i j v) = fillcount g + 1 := by
  unfold fillcount setCell
  have hin : i - 1 < g.length := by omega
  have hrl : (g.getD (i - 1) []).length = 9 := getD_row_length g _ hrow hin
  have hsum := sum_map_set (fun r => r.countP (fun w => decide (0 < w))) g (i - 1)
    ((g.getD (i - 1) []).set (j - 1) v) hin
  beta_reduce at hsum
  have hset : ((g.getD (i - 1) []).set (j - 1) v).countP (fun w => decide (0 < w)) =
      (g.getD (i - 1) []).countP (fun w => decide (0 < w)) + 1 := by
    apply countP_set_of_zero _ _ _ _ (by omega) (by simpa using hv)
    unfold cell at hz
    rw [hz]
    rfl
  omega

theorem fillcount_le_setCell (g : Grid) (i j v : ℕ) (hv : 0 < v) :
    fillcount g ≤ fillcount (setCell g i j v) := by
  rcases Nat.lt_or_ge (i - 1) g.length with hin | hout
  · unfold fillcount setCell
    have hsum := sum_map_set (fun r => r.countP (fun w => decide (0 < w))) g (i - 1)
      ((g.getD (i - 1) []).set (j - 1) v) hin
    beta_reduce at hsum
    have hle := le_countP_set (fun w => decide (0 < w)) (g.getD (i - 1) []) (j - 1) v
      (by simpa using hv)
    omega
  · rw [setCell_out_of_range _ _ _ _ (by omega)]

theorem fillcount_setCell_le_succ (g : Grid) (i j v : ℕ) :
    fillcount (setCell g i j v) ≤ fillcount g + 1 := by
  rcases Nat.lt_or_ge (i - 1) g.length with hin | hout
  · unfold fillcount setCell
    have hsum := sum_map_set (fun r => r.countP (fun w => decide (0 < w))) g (i - 1)
      ((g.getD (i - 1) []).set (j - 1) v) hin
    beta_reduce at hsum
    have hle := countP_set_le (fun w => decide (0 < w)) (g.getD (i - 1) []) (j - 1) v
    omega
  · rw [setCell_out_of_range _ _ _ _ (by omega)]
    omega

theorem WF_setCell (g : Grid) (i j v : ℕ) (hg : WF g) (hv : v ≤ 9) :
    WF (setCell g i j v) := by
  rcases Nat.lt_or_ge (i - 1) g.length with hin | hout
  · obtain ⟨hlen, hrows⟩ := hg
    constructor
    · unfold setCell
      rw [List.length_set]
      exact hlen
    · intro r hr
      rcases List.mem_or_eq_of_mem_set hr with hr | hr
      · exact hrows r hr
      · subst hr
        obtain ⟨hl9, hv9⟩ := hrows _ (getD_row_mem g _ hin)
        refine ⟨by rw [List.length_set]; exact hl9, ?_⟩
        intro w hw
        rcases List.mem_or_eq_of_mem_set hw with hw | hw
        · exact hv9 w hw
        · subst hw; exact hv
  · rw [setCell_out_of_range _ _ _ _ (by omega)]
    exact hg

theorem fillcount_le_81 (g : Grid) (hg : WF g) : fillcount g ≤ 81 := by
  obtain ⟨hlen, hrows⟩ := hg
  unfold fillcount
  have h9 : ∀ x ∈ g.map (fun r => r.countP (fun w => decide (0 < w))), x ≤ 9 := by
    intro x hx
    obtain ⟨r, hr, rfl⟩ := List.mem_map.mp hx
    calc (r.countP fun w => decide (0 < w)) ≤ r.length := List.countP_le_length _
    _ = 9 := (hrows r hr).1
  calc (g.map (fun r => r.countP (fun w => decide (0 < w)))).sum
      ≤ (g.map (fun r => r.countP (fun w => decide (0 < w)))).length • 9 :=
        List.sum_le_card_nsmul _ 9 h9
  _ = 81 := by rw [List.length_map, hlen]; rfl

theorem sum_eq_nine_mul (l : List ℕ) (hle : ∀ x ∈ l, x ≤ 9)
    (hsum : l.sum = 9 * l.length) : ∀ x ∈ l, x = 9 := by
  induction l with
  | nil => simp
  | cons x xs ih =>
    have hxs : xs.sum ≤ 9 * xs.length := by
      calc xs.sum ≤ xs.length • 9 := List.sum_le_card_nsmul _ 9 (fun y hy => hle y (by simp [hy]))
      _ = 9 * xs.length := by rw [smul_eq_mul]; ring
    have hx : x ≤ 9 := hle x (by simp)
    simp only [List.sum_cons, List.length_cons] at hsum
    have hx9 : x = 9 := by omega
    intro y hy
    rcases List.mem_cons.mp hy with rfl | hy
    · exact hx9
    · exact ih (fun z hz => hle z (by simp [hz])) (by omega) y hy

theorem fillcount_eq_81_pos (g : Grid) (hg : WF g) (hfull : fillcount g = 81) :
    ∀ i j, 1 ≤ i → i ≤ 9 → 1 ≤ j → j ≤ 9 → 0 < cell g i j := by
  obtain ⟨hlen, hrows⟩ := hg
  intro i j hi1 hi9 hj1 hj9
  have hin : i - 1 < g.length := by omega
  have hall : ∀ x ∈ g.map (fun r => r.countP (fun w => decide (0 < w))), x = 9 := by
    apply sum_eq_nine_mul
    · intro x hx
      obtain ⟨r, hr, rfl⟩ := List.mem_map.mp hx
      calc (r.countP fun w => decide (0 < w)) ≤ r.length := List.countP_le_length _
      _ = 9 := (hrows r hr).1
    · unfold fillcount at hfull
      rw [hfull, List.length_map, hlen]
  have hcount : (g.getD (i - 1) []).countP (fun w => decide (0 < w)) = 9 :=
    hall _ (List.mem_map.mpr ⟨_, getD_row_mem g _ hin, rfl⟩)
  have hpos : ∀ w ∈ g.getD (i - 1) [], 0 < w := by
    intro w hw
    have h := List.countP_eq_length.mp
      (by rw [hcount, getD_row_length g _ (fun r hr => (hrows r hr).1) hin]) w hw
    simpa using h
  have hjin : j - 1 < (g.getD (i - 1) []).length := by
    rw [getD_row_length g _ (fun r hr => (hrows r hr).1) hin]; omega
  unfold cell
  apply hpos
  rw [List.getD_eq_getElem _ 0 hjin]
  exact List.getElem_mem hjin

/-! ## Candidate-set membership -/

theorem cands_mem (g : Grid) (i j x : ℕ) (hx : x ∈ cands g i j) :
    1 ≤ x ∧ x ≤ 9 := by
  unfold cands at hx
  have hr := (List.mem_filter.mp hx).1
  have := (List.mem_range'_1).mp hr
  omega

theorem length_eq_one_headI (l : List ℕ) (h : l.length = 1) : l = [l.headI] := by
  cases l with
  | nil => simp at h
  | cons x xs =>
    cases xs with
    | nil => rfl
    | cons y ys => simp at h

/-! ## pass1 invariants -/

theorem pass1_basic (sa : SA) (ids : List ℕ) :
    ∀ (st st' : P1), pass1 sa ids st = .ok st' →
    st.filled ≤ st'.filled ∧
    fillcount st.g ≤ fillcount st'.g ∧
    fillcount st'.g + st.filled ≤ fillcount st.g + st'.filled ∧
    (WF st.g → WF st'.g) ∧
    (st'.filled = st.filled →
      st'.g = st.g ∧ ∀ ix ∈ ids, subGet st.g sa ix = 0 →
        2 ≤ (cands st.g (matrixIndices sa ix).1 (matrixIndices sa ix).2).length) := by
  induction ids with
  | nil =>
    intro st st' h
    simp only [pass1] at h
    cases h
    simp
  | cons ix ixs ih =>
    intro st st' h
    simp only [pass1] at h
    by_cases h0 : 0 < subGet st.g sa ix
    · rw [if_pos h0] at h
      obtain ⟨h1, h2, h3, h4, h5⟩ := ih _ _ h
      refine ⟨h1, h2, h3, h4, ?_⟩
      intro hf
      obtain ⟨hg, hc⟩ := h5 hf
      refine ⟨hg, ?_⟩
      intro ix' hix' hz
      rcases List.mem_cons.mp hix' with rfl | hix'
      · omega
      · exact hc ix' hix' hz
    · rw [if_neg h0] at h
      by_cases hl0 : (cands st.g (matrixIndices sa ix).1 (matrixIndices sa ix).2).length = 0
      · rw [if_pos hl0] at h
        simp at h
      · rw [if_neg hl0] at h
        by_cases hl1 :
            (cands st.g (matrixIndices sa ix).1 (matrixIndices sa ix).2).length = 1
        · rw [if_pos hl1] at h
          have hcell : cell st.g (matrixIndices sa ix).1 (matrixIndices sa ix).2 = 0 := by
            have hz : subGet st.g sa ix = 0 := by omega
            exact hz
          rcases hs : sudokuSet st.g (matrixIndices sa ix).1 (matrixIndices sa ix).2
              (cands st.g (matrixIndices sa ix).1 (matrixIndices sa ix).2).headI
            with e | g2
          · rw [sudokuSet, if_pos hcell] at hs
            cases hs
          · rw [hs] at h
            simp only at h
            rw [sudokuSet, if_pos hcell] at hs
            cases hs
            have hhead :
                (cands st.g (matrixIndices sa ix).1 (matrixIndices sa ix).2).headI ∈
                cands st.g (matrixIndices sa ix).1 (matrixIndices sa ix).2 := by
              have hone := length_eq_one_headI _ hl1
              rw [hone]
              simp
            obtain ⟨hv1, hv9⟩ := cands_mem _ _ _ _ hhead
            obtain ⟨h1, h2, h3, h4, h5⟩ := ih _ _ h
            simp only at h1 h2 h3 h4 h5
            have hmono := fillcount_le_setCell st.g (matrixIndices sa ix).1
              (matrixIndices sa ix).2
              ((cands st.g (matrixIndices sa ix).1 (matrixIndices sa ix).2).headI) (by omega)
            have hsucc := fillcount_setCell_le_succ st.g (matrixIndices sa ix).1
              (matrixIndices sa ix).2
              ((cands st.g (matrixIndices sa ix).1 (matrixIndices sa ix).2).headI)
            refine ⟨by omega, by omega, by omega, ?_, by omega⟩
            intro hwf
            exact h4 (WF_setCell _ _ _ _ hwf (by omega))
        · rw [if_neg hl1] at h
          obtain ⟨h1, h2, h3, h4, h5⟩ := ih _ _ h
          simp only at h1 h2 h3 h4 h5
          refine ⟨h1, h2, h3, h4, ?_⟩
          intro hf
          obtain ⟨hg, hc⟩ := h5 hf
          refine ⟨hg, ?_⟩
          intro ix' hix' hz
          rcases List.mem_cons.mp hix' with rfl | hix'
          · omega
          · exact hc ix' hix' hz

/-! ## pass2 invariants -/

theorem pass2_basic (sa : SA) (vs : List ℕ) :
    ∀ (st : P1) (g' : Grid) (n : ℕ), pass2 sa vs st = .ok (g', n) →
    (∀ v ∈ vs, 1 ≤ v ∧ v ≤ 9) →
    st.filled ≤ n ∧
    fillcount st.g ≤ fillcount g' ∧
    fillcount g' + st.filled ≤ fillcount st.g + n ∧
    (WF st.g → WF g') ∧
    (n = st.filled → g' = st.g) := by
  induction vs with
  | nil =>
    intro st g' n h hv
    simp only [pass2] at h
    cases h
    simp
  | cons v vs ih =>
    intro st g' n h hv
    have hv1 : 1 ≤ v ∧ v ≤ 9 := hv v (by simp)
    have hvs : ∀ w ∈ vs, 1 ≤ w ∧ w ≤ 9 := fun w hw => hv w (by simp [hw])
    simp only [pass2] at h
    by_cases hseen : v ∈ st.seen
    · rw [if_pos hseen] at h
      exact ih _ _ _ h hvs
    · rw [if_neg hseen] at h
      rcases hh : homes v st.defs with _ | ⟨ix, rest⟩
      · rw [hh] at h
        simp at h
      · rcases rest with _ | ⟨ix2, rest2⟩
        · rw [hh] at h
          simp only at h
          obtain ⟨h1, h2, h3, h4, h5⟩ := ih _ _ _ h hvs
          simp only at h1 h2 h3 h4 h5
          have hmono := fillcount_le_setCell st.g (matrixIndices sa ix).1
            (matrixIndices sa ix).2 v (by omega)
          have hsucc := fillcount_setCell_le_succ st.g (matrixIndices sa ix).1
            (matrixIndices sa ix).2 v
          have hsub : subSet st.g sa ix v = setCell st.g (matrixIndices sa ix).1
            (matrixIndices sa ix).2 v := rfl
          rw [← hsub] at hmono hsucc
          refine ⟨by omega, by omega, by omega, ?_, by omega⟩
          intro hwf
          exact h4 (WF_setCell _ _ _ _ hwf (by omega))
        · rw [hh] at h
          simp only at h
          exact ih _ _ _ h hvs

/-! ## Error classification: fill_subarray raises only Invalid -/

theorem pass1_error (sa : SA) (ids : List ℕ) :
    ∀ (st : P1) (e : PyErr), pass1 sa ids st = .error e → e = .invalid := by
  induction ids with
  | nil =>
    intro st e h
    simp only [pass1] at h
    simp at h
  | cons ix ixs ih =>
    intro st e h
    simp only [pass1] at h
    by_cases h0 : 0 < subGet st.g sa ix
    · rw [if_pos h0] at h
      exact ih _ _ h
    · rw [if_neg h0] at h
      by_cases hl0 : (cands st.g (matrixIndices sa ix).1 (matrixIndices sa ix).2).length = 0
      · rw [if_pos hl0] at h
        cases h
        rfl
      · rw [if_neg hl0] at h
        by_cases hl1 :
            (cands st.g (matrixIndices sa ix).1 (matrixIndices sa ix).2).length = 1
        · rw [if_pos hl1] at h
          have hcell : cell st.g (matrixIndices sa ix).1 (matrixIndices sa ix).2 = 0 := by
            have hz : subGet st.g sa ix = 0 := by omega
            exact hz
          rcases hs : sudokuSet st.g (matrixIndices sa ix).1 (matrixIndices sa ix).2
              (cands st.g (matrixIndices sa ix).1 (matrixIndices sa ix).2).headI
            with e2 | g2
          · rw [sudokuSet, if_pos hcell] at hs
            cases hs
          · rw [hs] at h
            simp only at h
            exact ih _ _ h
        · rw [if_neg hl1] at h
          exact ih _ _ h

theorem pass2_error (sa : SA) (vs : List ℕ) :
    ∀ (st : P1) (e : PyErr), pass2 sa vs st = .error e → e = .invalid := by
  induction vs with
  | nil =>
    intro st e h
    simp only [pass2] at h
    simp at h
  | cons v vs ih =>
    intro st e h
    simp only [pass2] at h
    by_cases hseen : v ∈ st.seen
    · rw [if_pos hseen] at h
      exact ih _ _ h
    · rw [if_neg hseen] at h
      rcases hh : homes v st.defs with _ | ⟨ix, rest⟩
      · rw [hh] at h
        cases h
        rfl
      · rcases rest with _ | ⟨ix2, rest2⟩
        · rw [hh] at h
          simp only at h
          exact ih _ _ h
        · rw [hh] at h
          simp only at h
          exact ih _ _ h

theorem fillSubarray_error (sa : SA) (g : Grid) (e : PyErr)
    (h : fillSubarray sa g = .error e) : e = .invalid := by
  unfold fillSubarray at h
  rcases hp : pass1 sa (List.range' 1 9) ⟨g, 0, [], []⟩ with e2 | st
  · rw [hp] at h
    cases h
    exact pass1_error _ _ _ _ hp
  · rw [hp] at h
    simp only at h
    exact pass2_error _ _ _ _ h

/-! ## fill_subarray invariants -/

theorem fillSubarray_basic (sa : SA) (g g' : Grid) (n : ℕ)
    (h : fillSubarray sa g = .ok (g', n)) :
    fillcount g ≤ fillcount g' ∧
    fillcount g' ≤ fillcount g + n ∧
    (WF g → WF g') ∧
    (n = 0 → g' = g ∧ ∀ ix ∈ List.range' 1 9, subGet g sa ix = 0 →
      2 ≤ (cands g (matrixIndices sa ix).1 (matrixIndices sa ix).2).length) := by
  unfold fillSubarray at h
  rcases hp : pass1 sa (List.range' 1 9) ⟨g, 0, [], []⟩ with e | st
  · rw [hp] at h
    cases h
  · rw [hp] at h
    simp only at h
    obtain ⟨p1, p2, p3, p4, p5⟩ := pass1_basic sa _ _ _ hp
    obtain ⟨q1, q2, q3, q4, q5⟩ := pass2_basic sa _ _ _ _ h (by decide)
    simp only at p1 p2 p3 p4 p5
    refine ⟨by omega, by omega, fun hwf => q4 (p4 hwf), ?_⟩
    intro hn
    subst hn
    have hf : st.filled = 0 := by omega
    obtain ⟨hg, hc⟩ := p5 hf
    have hq := q5 (by omega)
    rw [hq, hg]
    exact ⟨rfl, hc⟩

/-! ## Given-preservation (ExtendsNZ) through fill_subarray -/

theorem ExtendsNZ_refl (g : Grid) : ExtendsNZ g g :=
  fun _ _ _ _ _ _ _ => rfl

theorem ExtendsNZ_trans {g₁ g₂ g₃ : Grid} (h12 : ExtendsNZ g₁ g₂) (h23 : ExtendsNZ g₂ g₃) :
    ExtendsNZ g₁ g₃ := by
  intro i j hi1 hi9 hj1 hj9 hnz
  have h2 := h12 i j hi1 hi9 hj1 hj9 hnz
  have h3 := h23 i j hi1 hi9 hj1 hj9 (by omega)
  omega

theorem matrixIndices_range (sa : SA) (ix : ℕ) (hsa : SAok sa) (h1 : 1 ≤ ix) (h9 : ix ≤ 9) :
    1 ≤ (matrixIndices sa ix).1 ∧ (matrixIndices sa ix).1 ≤ 9 ∧
    1 ≤ (matrixIndices sa ix).2 ∧ (matrixIndices sa ix).2 ≤ 9 := by
  cases sa with
  | row r => obtain ⟨hr1, hr9⟩ := hsa; simp [matrixIndices]; omega
  | col c => obtain ⟨hc1, hc9⟩ := hsa; simp [matrixIndices]; omega
  | sq q => obtain ⟨hq1, hq9⟩ := hsa; simp [matrixIndices]; omega

theorem ExtendsNZ_setCell {g₀ h : Grid} (i j v : ℕ) (hext : ExtendsNZ g₀ h)
    (hi1 : 1 ≤ i) (hi9 : i ≤ 9) (hj1 : 1 ≤ j) (hj9 : j ≤ 9)
    (hz : cell g₀ i j = 0) : ExtendsNZ g₀ (setCell h i j v) := by
  intro i' j' hi'1 hi'9 hj'1 hj'9 hnz
  have hne : i ≠ i' ∨ j ≠ j' := by
    by_contra hc
    push_neg at hc
    obtain ⟨rfl, rfl⟩ := hc
    exact hnz hz
  rw [cell_setCell_ne h i j i' j' v hi1 hi'1 hj1 hj'1 hne]
  exact hext i' j' hi'1 hi'9 hj'1 hj'9 hnz

theorem cell_zero_of_extends {g₀ h : Grid} (i j : ℕ) (hext : ExtendsNZ g₀ h)
    (hi1 : 1 ≤ i) (hi9 : i ≤ 9) (hj1 : 1 ≤ j) (hj9 : j ≤ 9)
    (hz : cell h i j = 0) : cell g₀ i j = 0 := by
  by_contra hc
  have := hext i j hi1 hi9 hj1 hj9 hc
  omega

theorem homes_mem (v ix : ℕ) (defs : List (ℕ × List ℕ)) (h : ix ∈ homes v defs) :
    ∃ p, (ix, p) ∈ defs := by
  unfold homes at h
  obtain ⟨e, he, rfl⟩ := List.mem_map.mp h
  exact ⟨e.2, List.mem_of_mem_filter he⟩

theorem pass1_extends (sa : SA) (g₀ : Grid) (hsa : SAok sa) (ids : List ℕ) :
    ∀ (st st' : P1), pass1 sa ids st = .ok st' →
    (∀ ix ∈ ids, 1 ≤ ix ∧ ix ≤ 9) →
    ExtendsNZ g₀ st.g →
    (∀ e ∈ st.defs, 1 ≤ e.1 ∧ e.1 ≤ 9 ∧
      cell g₀ (matrixIndices sa e.1).1 (matrixIndices sa e.1).2 = 0) →
    ExtendsNZ g₀ st'.g ∧
    (∀ e ∈ st'.defs, 1 ≤ e.1 ∧ e.1 ≤ 9 ∧
      cell g₀ (matrixIndices sa e.1).1 (matrixIndices sa e.1).2 = 0) := by
  induction ids with
  | nil =>
    intro st st' h hids hext hdefs
    simp only [pass1] at h
    cases h
    exact ⟨hext, hdefs⟩
  | cons ix ixs ih =>
    intro st st' h hids hext hdefs
    have hix : 1 ≤ ix ∧ ix ≤ 9 := hids ix (by simp)
    have hixs : ∀ w ∈ ixs, 1 ≤ w ∧ w ≤ 9 := fun w hw => hids w (by simp [hw])
    have hmi := matrixIndices_range sa ix hsa (by omega) (by omega)
    simp only [pass1] at h
    by_cases h0 : 0 < subGet st.g sa ix
    · rw [if_pos h0] at h
      exact ih _ _ h hixs hext hdefs
    · rw [if_neg h0] at h
      have hzc : cell st.g (matrixIndices sa ix).1 (matrixIndices sa ix).2 = 0 := by
        have hz : subGet st.g sa ix = 0 := by omega
        exact hz
      have hz0 : cell g₀ (matrixIndices sa ix).1 (matrixIndices sa ix).2 = 0 :=
        cell_zero_of_extends _ _ hext (by omega) (by omega) (by omega) (by omega) hzc
      by_cases hl0 : (cands st.g (matrixIndices sa ix).1 (matrixIndices sa ix).2).length = 0
      · rw [if_pos hl0] at h
        simp at h
      · rw [if_neg hl0] at h
        by_cases hl1 :
            (cands st.g (matrixIndices sa ix).1 (matrixIndices sa ix).2).length = 1
        · rw [if_pos hl1] at h
          rcases hs : sudokuSet st.g (matrixIndices sa ix).1 (matrixIndices sa ix).2
              (cands st.g (matrixIndices sa ix).1 (matrixIndices sa ix).2).headI
            with e | g2
          · rw [sudokuSet, if_pos hzc] at hs
            cases hs
          · rw [hs] at h
            simp only at h
            rw [sudokuSet, if_pos hzc] at hs
            cases hs
            apply ih _ _ h hixs
            · exact ExtendsNZ_setCell _ _ _ hext (by omega) (by omega) (by omega) (by omega) hz0
            · exact hdefs
        · rw [if_neg hl1] at h
          apply ih _ _ h hixs hext
          intro e he
          simp only at he
          rcases List.mem_append.mp he with he | he
          · exact hdefs e he
          · simp at he
            subst he
            exact ⟨by omega, by omega, hz0⟩

theorem pass2_extends (sa : SA) (g₀ : Grid) (hsa : SAok sa) (vs : List ℕ) :
    ∀ (st : P1) (g' : Grid) (n : ℕ), pass2 sa vs st = .ok (g', n) →
    ExtendsNZ g₀ st.g →
    (∀ e ∈ st.defs, 1 ≤ e.1 ∧ e.1 ≤ 9 ∧
      cell g₀ (matrixIndices sa e.1).1 (matrixIndices sa e.1).2 = 0) →
    ExtendsNZ g₀ g' := by
  induction vs with
  | nil =>
    intro st g' n h hext hdefs
    simp only [pass2] at h
    cases h
    exact hext
  | cons v vs ih =>
    intro st g' n h hext hdefs
    simp only [pass2] at h
    by_cases hseen : v ∈ st.seen
    · rw [if_pos hseen] at h
      exact ih _ _ _ h hext hdefs
    · rw [if_neg hseen] at h
      rcases hh : homes v st.defs with _ | ⟨ix, rest⟩
      · rw [hh] at h
        simp at h
      · rcases rest with _ | ⟨ix2, rest2⟩
        · rw [hh] at h
          simp only at h
          have hmem : ix ∈ homes v st.defs := by rw [hh]; simp
          obtain ⟨p, hp⟩ := homes_mem _ _ _ hmem
          obtain ⟨hix1, hix9, hz0⟩ := hdefs _ hp
          apply ih _ _ _ h
          · exact ExtendsNZ_setCell _ _ _ hext
              (matrixIndices_range sa ix hsa hix1 hix9).1
              (matrixIndices_range sa ix hsa hix1 hix9).2.1
              (matrixIndices_range sa ix hsa hix1 hix9).2.2.1
              (matrixIndices_range sa ix hsa hix1 hix9).2.2.2 hz0
          · exact hdefs
        · rw [hh] at h
          simp only at h
          exact ih _ _ _ h hext hdefs

theorem fillSubarray_extends (sa : SA) (g g' : Grid) (n : ℕ) (hsa : SAok sa)
    (h : fillSubarray sa g = .ok (g', n)) : ExtendsNZ g g' := by
  unfold fillSubarray at h
  rcases hp : pass1 sa (List.range' 1 9) ⟨g, 0, [], []⟩ with e | st
  · rw [hp] at h
    cases h
  · rw [hp] at h
    simp only at h
    obtain ⟨hext, hdefs⟩ := pass1_extends sa g hsa _ _ _ hp (by decide)
      (ExtendsNZ_refl g) (by simp)
    exact pass2_extends sa g hsa _ _ _ _ h hext hdefs

/-! ## single_pass and simple_fill invariants -/

theorem foldUnits_basic (us : List SA) :
    ∀ (g : Grid) (acc : ℕ) (g' : Grid) (n : ℕ), foldUnits us g acc = .ok (g', n) →
    (∀ sa ∈ us, SAok sa) →
    acc ≤ n ∧ fillcount g ≤ fillcount g' ∧ (WF g → WF g') ∧ ExtendsNZ g g' ∧
    (n = acc → g' = g ∧ ∀ sa ∈ us, fillSubarray sa g = .ok (g, 0)) := by
  induction us with
  | nil =>
    intro g acc g' n h hsa
    simp only [foldUnits] at h
    cases h
    refine ⟨le_refl _, le_refl _, id, ExtendsNZ_refl g, ?_⟩
    intro _
    exact ⟨rfl, by simp⟩
  | cons sa sas ih =>
    intro g acc g' n h hsa
    have hsa1 : SAok sa := hsa sa (by simp)
    have hsas : ∀ s ∈ sas, SAok s := fun s hs => hsa s (by simp [hs])
    simp only [foldUnits] at h
    rcases hf : fillSubarray sa g with e | ⟨g₁, n₁⟩
    · rw [hf] at h
      simp at h
    · rw [hf] at h
      simp only at h
      obtain ⟨h1, h2, h3, h4, h5⟩ := ih _ _ _ _ h hsas
      obtain ⟨f1, f2, f3, f4⟩ := fillSubarray_basic sa g g₁ n₁ hf
      refine ⟨by omega, by omega, fun hwf => h3 (f3 hwf),
        ExtendsNZ_trans (fillSubarray_extends sa g g₁ n₁ hsa1 hf) h4, ?_⟩
      intro hn
      have hn₁ : n₁ = 0 := by omega
      obtain ⟨hg₁, _⟩ := f4 hn₁
      subst hg₁
      obtain ⟨hg', hall⟩ := h5 (by omega)
      refine ⟨hg', ?_⟩
      intro s hs
      rcases List.mem_cons.mp hs with rfl | hs
      · rw [hf, hn₁]
      · exact hall s hs

theorem singlePass_basic (g g' : Grid) (n : ℕ) (h : singlePass g = .ok (g', n)) :
    fillcount g ≤ fillcount g' ∧ (WF g → WF g') ∧ ExtendsNZ g g' ∧
    (n = 0 → g' = g ∧ ∀ sa ∈ unitList, fillSubarray sa g = .ok (g, 0)) := by
  obtain ⟨h1, h2, h3, h4, h5⟩ := foldUnits_basic unitList g 0 g' n h (by decide)
  exact ⟨h2, h3, h4, h5⟩

theorem simpleFillAux_basic (fuel : ℕ) :
    ∀ (g : Grid) (acc : ℕ) (g' : Grid) (n : ℕ), simpleFillAux fuel g acc = .ok (g', n) →
    fillcount g ≤ fillcount g' ∧ (WF g → WF g') ∧ ExtendsNZ g g' ∧
    singlePass g' = .ok (g', 0) := by
  induction fuel with
  | zero =>
    intro g acc g' n h
    simp only [simpleFillAux] at h
    simp at h
  | succ fuel ih =>
    intro g acc g' n h
    simp only [simpleFillAux] at h
    rcases hs : singlePass g with e | ⟨g₁, m⟩
    · rw [hs] at h
      simp at h
    · rw [hs] at h
      simp only at h
      by_cases hm : m = 0
      · rw [if_pos hm] at h
        cases h
        subst hm
        obtain ⟨s1, s2, s3, s4⟩ := singlePass_basic _ _ _ hs
        obtain ⟨hgeq, _⟩ := s4 rfl
        subst hgeq
        exact ⟨s1, s2, s3, hs⟩
      · rw [if_neg hm] at h
        obtain ⟨h1, h2, h3, h4⟩ := ih _ _ _ _ h
        obtain ⟨s1, s2, s3, s4⟩ := singlePass_basic _ _ _ hs
        exact ⟨by omega, fun hwf => h2 (s2 hwf), ExtendsNZ_trans s3 h3, h4⟩

theorem simpleFill_basic (g g' : Grid) (n : ℕ) (h : simpleFill g = .ok (g', n)) :
    fillcount g ≤ fillcount g' ∧ (WF g → WF g') ∧ ExtendsNZ g g' ∧
    singlePass g' = .ok (g', 0) :=
  simpleFillAux_basic 82 g 0 g' n h

/-! ## Branch-cell scan and selection lemmas -/

theorem sudokuSet_ok (g : Grid) (i j v : ℕ) (g₂ : Grid)
    (h : sudokuSet g i j v = .ok g₂) : cell g i j = 0 ∧ g₂ = setCell g i j v := by
  unfold sudokuSet at h
  by_cases hz : cell g i j = 0
  · rw [if_pos hz] at h
    cases h
    exact ⟨hz, rfl⟩
  · rw [if_neg hz] at h
    cases h

theorem scan_basic (g : Grid) (cells : List (ℕ × ℕ)) :
    ∀ (acc : List ((ℕ × ℕ) × List ℕ)) res, scan g cells acc = .ok res →
    (∀ c ∈ cells, 1 ≤ c.1 ∧ c.1 ≤ 9 ∧ 1 ≤ c.2 ∧ c.2 ≤ 9) →
    (∀ e ∈ acc, ScanEntryOK g e) →
    (∀ e all, res = .inr all → e ∈ all → ScanEntryOK g e) ∧
    (∀ e, res = .inl e → ScanEntryOK g e ∧ e.2.length = 2) := by
  induction cells with
  | nil =>
    intro acc res h hc hacc
    simp only [scan] at h
    cases h
    constructor
    · intro e all hall he
      cases hall
      exact hacc e he
    · intro e he
      cases he
  | cons c cs ih =>
    intro acc res h hc hacc
    have hc1 := hc c (by simp)
    have hcs : ∀ d ∈ cs, 1 ≤ d.1 ∧ d.1 ≤ 9 ∧ 1 ≤ d.2 ∧ d.2 ≤ 9 :=
      fun d hd => hc d (by simp [hd])
    rcases c with ⟨i, j⟩
    simp only [scan] at h
    by_cases h0 : 0 < cell g i j
    · rw [if_pos h0] at h
      exact ih _ _ h hcs hacc
    · rw [if_neg h0] at h
      by_cases hl0 : (cands g i j).length = 0
      · rw [if_pos hl0] at h
        simp at h
      · rw [if_neg hl0] at h
        by_cases hl1 : (cands g i j).length = 1
        · rw [if_pos hl1] at h
          simp at h
        · rw [if_neg hl1] at h
          by_cases hl2 : (cands g i j).length = 2
          · rw [if_pos hl2] at h
            cases h
            constructor
            · intro e all hall
              cases hall
            · intro e he
              cases he
              refine ⟨⟨?_, ?_, ?_, ?_, ?_, rfl⟩, hl2⟩
              · show 1 ≤ i; omega
              · show i ≤ 9; omega
              · show 1 ≤ j; omega
              · show j ≤ 9; omega
              · show cell g i j = 0; omega
          · rw [if_neg hl2] at h
            apply ih _ _ h hcs
            intro e he
            rcases List.mem_append.mp he with he | he
            · exact hacc e he
            · simp at he
              subst he
              refine ⟨?_, ?_, ?_, ?_, ?_, rfl⟩
              · show 1 ≤ i; omega
              · show i ≤ 9; omega
              · show 1 ≤ j; omega
              · show j ≤ 9; omega
              · show cell g i j = 0; omega

theorem selectMin_mem (all : List ((ℕ × ℕ) × List ℕ)) (e : (ℕ × ℕ) × List ℕ)
    (h : selectMin all = .ok e) : e ∈ all := by
  unfold selectMin at h
  rcases all with _ | ⟨e₁, rest⟩
  · simp [selectMinAux] at h
  · rcases rest with _ | ⟨e₂, rest₂⟩
    · simp only [selectMinAux] at h
      cases h
      simp
    · simp only [selectMinAux] at h
      cases h

/-! ## branchLoop lemmas -/

theorem branchLoop_mem (rec : Grid → Except PyErr (Finset Grid)) (g : Grid) (i j : ℕ)
    (ps : List ℕ) :
    ∀ (acc : Finset Grid) (S : Finset Grid), branchLoop rec g i j ps acc = .ok S →
    ∀ s ∈ S, s ∈ acc ∨ ∃ p ∈ ps, ∃ g₂ S', sudokuSet g i j p = .ok g₂ ∧
      rec g₂ = .ok S' ∧ s ∈ S' := by
  induction ps with
  | nil =>
    intro acc S h s hs
    simp only [branchLoop] at h
    cases h
    exact Or.inl hs
  | cons p ps ih =>
    intro acc S h s hs
    simp only [branchLoop] at h
    rcases hset : sudokuSet g i j p with e | g₂
    · rw [hset] at h
      simp at h
    · rw [hset] at h
      simp only at h
      rcases hrec : rec g₂ with e | S'
      · rw [hrec] at h
        rcases e with _ | _ | _
        · simp only at h
          rcases ih _ _ h s hs with hacc | ⟨q, hq, g₃, S₃, hs₃, hr₃, hm₃⟩
          · exact Or.inl hacc
          · exact Or.inr ⟨q, by simp [hq], g₃, S₃, hs₃, hr₃, hm₃⟩
        · simp at h
        · simp at h
      · rw [hrec] at h
        simp only at h
        rcases ih _ _ h s hs with hacc | ⟨q, hq, g₃, S₃, hs₃, hr₃, hm₃⟩
        · rcases Finset.mem_union.mp hacc with hacc | hS'
          · exact Or.inl hacc
          · exact Or.inr ⟨p, by simp, g₂, S', hset, hrec, hS'⟩
        · exact Or.inr ⟨q, by simp [hq], g₃, S₃, hs₃, hr₃, hm₃⟩

theorem branchLoop_congr (r₁ r₂ : Grid → Except PyErr (Finset Grid)) (g : Grid) (i j : ℕ)
    (ps : List ℕ)
    (hcong : ∀ p ∈ ps, ∀ g₂, sudokuSet g i j p = .ok g₂ → r₁ g₂ = r₂ g₂) :
    ∀ acc, branchLoop r₁ g i j ps acc = branchLoop r₂ g i j ps acc := by
  induction ps with
  | nil => intro acc; rfl
  | cons p ps ih =>
    intro acc
    have hcongs : ∀ q ∈ ps, ∀ g₂, sudokuSet g i j q = .ok g₂ → r₁ g₂ = r₂ g₂ :=
      fun q hq => hcong q (by simp [hq])
    simp only [branchLoop]
    rcases hset : sudokuSet g i j p with e | g₂
    · rfl
    · simp only
      rw [← hcong p (by simp) g₂ hset]
      rcases hrec : r₁ g₂ with e | S'
      · rcases e with _ | _ | _
        · exact ih hcongs _
        · rfl
        · rfl
      · exact ih hcongs _

/-! ## dynamic_solve: soundness of returned solution sets -/

theorem branchLoop_sound_aux (fuel : ℕ) (g₁ : Grid) (entry : (ℕ × ℕ) × List ℕ)
    (hwf₁ : WF g₁) (hE : ScanEntryOK g₁ entry)
    (IH : ∀ g S, WF g → dynamicSolve fuel g = .ok S →
      ∀ s ∈ S, WF s ∧ validB s = true ∧ fillcount s = 81 ∧ ExtendsNZ g s)
    (S : Finset Grid)
    (h : branchLoop (dynamicSolve fuel) g₁ entry.1.1 entry.1.2 entry.2 ∅ = .ok S) :
    ∀ s ∈ S, WF s ∧ validB s = true ∧ fillcount s = 81 ∧ ExtendsNZ g₁ s := by
  intro s hs
  rcases branchLoop_mem _ _ _ _ _ _ _ h s hs with habs | ⟨p, hp, g₂, S', hset, hrec, hmem⟩
  · simp at habs
  · obtain ⟨hz, rfl⟩ := sudokuSet_ok _ _ _ _ _ hset
    obtain ⟨hi1, hi9, hj1, hj9, hcell0, hposs⟩ := hE
    have hp9 : 1 ≤ p ∧ p ≤ 9 := cands_mem _ _ _ _ (hposs ▸ hp)
    have hwf₂ : WF (setCell g₁ entry.1.1 entry.1.2 p) := WF_setCell _ _ _ _ hwf₁ (by omega)
    obtain ⟨w1, w2, w3, w4⟩ := IH _ _ hwf₂ hrec s hmem
    refine ⟨w1, w2, w3, ExtendsNZ_trans ?_ w4⟩
    exact ExtendsNZ_setCell _ _ _ (ExtendsNZ_refl g₁) hi1 hi9 hj1 hj9 hcell0

theorem dynamicSolve_sound : ∀ (fuel : ℕ) (g : Grid) (S : Finset Grid),
    WF g → dynamicSolve fuel g = .ok S →
    ∀ s ∈ S, WF s ∧ validB s = true ∧ fillcount s = 81 ∧ ExtendsNZ g s := by
  intro fuel
  induction fuel with
  | zero =>
    intro g S hwf h
    simp [dynamicSolve] at h
  | succ fuel ih =>
    intro g S hwf h
    simp only [dynamicSolve] at h
    rcases hsf : simpleFill g with e | ⟨g₁, k⟩
    · rw [hsf] at h
      simp at h
    · rw [hsf] at h
      simp only at h
      obtain ⟨m1, m2, m3, m4⟩ := simpleFill_basic g g₁ k hsf
      have hwf₁ : WF g₁ := m2 hwf
      have hval : isValidE g₁ = .ok (validB g₁) := by rw [isValidE, if_pos hwf₁]
      rw [hval] at h
      rcases hb : validB g₁ with _ | _
      · rw [hb] at h
        simp at h
      · rw [hb] at h
        simp only at h
        by_cases hsolved : 81 ≤ fillcount g₁
        · rw [if_pos hsolved] at h
          cases h
          intro s hs
          rw [Finset.mem_singleton] at hs
          subst hs
          have hle := fillcount_le_81 _ hwf₁
          exact ⟨hwf₁, hb, by omega, m3⟩
        · rw [if_neg hsolved] at h
          rcases hsc : scan g₁ rowMajor [] with e | res
          · rw [hsc] at h
            simp at h
          · have hscan := scan_basic g₁ rowMajor [] _ hsc (by decide) (by simp)
            rcases res with entry | all
            · rcases entry with ⟨ij, poss⟩
              rw [hsc] at h
              simp only at h
              have hE := (hscan.2 (ij, poss) rfl).1
              intro s hs
              obtain ⟨w1, w2, w3, w4⟩ :=
                branchLoop_sound_aux fuel g₁ (ij, poss) hwf₁ hE ih S h s hs
              exact ⟨w1, w2, w3, ExtendsNZ_trans m3 w4⟩
            · rw [hsc] at h
              simp only at h
              rcases hsel : selectMin all with e | entry
              · rw [hsel] at h
                simp at h
              · rcases entry with ⟨ij, poss⟩
                rw [hsel] at h
                simp only at h
                have hE := hscan.1 (ij, poss) all rfl (selectMin_mem all (ij, poss) hsel)
                intro s hs
                obtain ⟨w1, w2, w3, w4⟩ :=
                  branchLoop_sound_aux fuel g₁ (ij, poss) hwf₁ hE ih S h s hs
                exact ⟨w1, w2, w3, ExtendsNZ_trans m3 w4⟩

/-! ## dynamic_solve: fuel stability (recursion-depth bound) -/

theorem dynamicSolve_stable : ∀ (fone : ℕ) (g : Grid) (ftwo : ℕ), WF g →
    82 - fillcount g ≤ fone → 82 - fillcount g ≤ ftwo →
    dynamicSolve fone g = dynamicSolve ftwo g := by
  intro fone
  induction fone using Nat.strong_induction_on with
  | _ fone ih =>
    intro g ftwo hwf h₁ h₂
    have hfc := fillcount_le_81 g hwf
    rcases fone with _ | a
    · omega
    rcases ftwo with _ | b
    · omega
    simp only [dynamicSolve]
    rcases hsf : simpleFill g with e | ⟨g₁, k⟩
    · rfl
    · simp only
      obtain ⟨m1, m2, m3, m4⟩ := simpleFill_basic g g₁ k hsf
      have hwf₁ : WF g₁ := m2 hwf
      have hfc₁ := fillcount_le_81 g₁ hwf₁
      have hval : isValidE g₁ = .ok (validB g₁) := by rw [isValidE, if_pos hwf₁]
      rw [hval]
      rcases hb : validB g₁ with _ | _
      · rfl
      · simp only
        by_cases hsolved : 81 ≤ fillcount g₁
        · rw [if_pos hsolved, if_pos hsolved]
        · rw [if_neg hsolved, if_neg hsolved]
          have hscan : ∀ res, scan g₁ rowMajor [] = .ok res →
              (∀ e all, res = .inr all → e ∈ all → ScanEntryOK g₁ e) ∧
              (∀ e, res = .inl e → ScanEntryOK g₁ e ∧ e.2.length = 2) :=
            fun res h => scan_basic g₁ rowMajor [] res h (by decide) (by simp)
          have hbranch : ∀ (ij : ℕ × ℕ) (poss : List ℕ), ScanEntryOK g₁ (ij, poss) →
              branchLoop (dynamicSolve a) g₁ ij.1 ij.2 poss ∅ =
              branchLoop (dynamicSolve b) g₁ ij.1 ij.2 poss ∅ := by
            intro ij poss hE
            apply branchLoop_congr
            intro p hp g₂ hset
            obtain ⟨hz, rfl⟩ := sudokuSet_ok _ _ _ _ _ hset
            obtain ⟨hi1, hi9, hj1, hj9, hcell0, hposs⟩ := hE
            have hposs2 : poss = cands g₁ ij.1 ij.2 := hposs
            have hp9 : 1 ≤ p ∧ p ≤ 9 := cands_mem _ _ _ _ (hposs2 ▸ hp)
            have hwf₂ : WF (setCell g₁ ij.1 ij.2 p) := WF_setCell _ _ _ _ hwf₁ (by omega)
            have hfc₂ : fillcount (setCell g₁ ij.1 ij.2 p) = fillcount g₁ + 1 := by
              obtain ⟨hlen, hrows⟩ := hwf₁
              exact fillcount_setCell_of_zero g₁ ij.1 ij.2 p hlen
                (fun r hr => (hrows r hr).1) hi1 hi9 hj1 hj9 hcell0 (by omega)
            apply ih a (by omega) _ b hwf₂ (by omega) (by omega)
          rcases hsc : scan g₁ rowMajor [] with e | res
          · rfl
          · rcases res with entry | all
            · rcases entry with ⟨ij, poss⟩
              simp only
              exact hbranch ij poss ((hscan _ hsc).2 (ij, poss) rfl).1
            · simp only
              rcases hsel : selectMin all with e | entry
              · rfl
              · rcases entry with ⟨ij, poss⟩
                simp only
                exact hbranch ij poss
                  ((hscan _ hsc).1 (ij, poss) all rfl (selectMin_mem all (ij, poss) hsel))

/-! ## Grid extensionality and further helpers -/

theorem map_getD_range' (l : List ℕ) (h9 : l.length = 9) :
    (List.range' 1 9).map (fun j => l.getD (j - 1) 0) = l := by
  apply List.ext_getElem (by simp [h9])
  intro k h1 h2
  simp only [List.getElem_map, List.getElem_range']
  rw [List.getD_eq_getElem l 0 (by omega)]
  congr 1
  omega

theorem grid_ext (s t : Grid) (hs : WF s) (ht : WF t)
    (h : ∀ i ∈ List.range' 1 9, ∀ j ∈ List.range' 1 9, cell s i j = cell t i j) :
    s = t := by
  obtain ⟨hsl, hsr⟩ := hs
  obtain ⟨htl, htr⟩ := ht
  apply List.ext_getElem (by omega)
  intro k hk1 hk2
  have hrs : (s.getD k []).length = 9 := getD_row_length s k (fun r hr => (hsr r hr).1) hk1
  have hrt : (t.getD k []).length = 9 := getD_row_length t k (fun r hr => (htr r hr).1) hk2
  have hrow : s.getD k [] = t.getD k [] := by
    apply List.ext_getElem (by omega)
    intro m hm1 hm2
    have hc := h (k + 1) (by rw [List.mem_range'_1]; omega)
      (m + 1) (by rw [List.mem_range'_1]; omega)
    unfold cell at hc
    simp only [Nat.add_sub_cancel] at hc
    rw [List.getD_eq_getElem _ 0 hm1, List.getD_eq_getElem _ 0 hm2] at hc
    exact hc
  rw [← List.getD_eq_getElem s [] hk1, ← List.getD_eq_getElem t [] hk2]
  exact hrow

theorem row_mem_unitList (i : ℕ) (hi : i ∈ List.range' 1 9) : SA.row i ∈ unitList := by
  unfold unitList
  refine List.mem_append.mpr (Or.inl ?_)
  refine List.mem_append.mpr (Or.inl ?_)
  exact List.mem_map.mpr ⟨i, hi, rfl⟩

theorem rows_all_pos (g : Grid) (hg : WF g) (hfull : fillcount g = 81) :
    ∀ r ∈ g, ∀ v ∈ r, 0 < v := by
  obtain ⟨hlen, hrows⟩ := hg
  have hall : ∀ x ∈ g.map (fun r => r.countP (fun w => decide (0 < w))), x = 9 := by
    apply sum_eq_nine_mul
    · intro x hx
      obtain ⟨r, hr, rfl⟩ := List.mem_map.mp hx
      calc (r.countP fun w => decide (0 < w)) ≤ r.length := List.countP_le_length _
      _ = 9 := (hrows r hr).1
    · unfold fillcount at hfull
      rw [hfull, List.length_map, hlen]
  intro r hr v hv
  have hcount : r.countP (fun w => decide (0 < w)) = 9 :=
    hall _ (List.mem_map.mpr ⟨_, hr, rfl⟩)
  have := List.countP_eq_length.mp (by rw [hcount, (hrows r hr).1]) v hv
  simpa using this

/-! ## pass2 error characterization (for the amended claim C4) -/

theorem pass2_error_iff (sa : SA) (vs : List ℕ) :
    ∀ (st : P1), (∃ e, pass2 sa vs st = .error e) ↔
    ∃ v ∈ vs, v ∉ st.seen ∧ homes v st.defs = [] := by
  induction vs with
  | nil =>
    intro st
    simp [pass2]
  | cons v vs ih =>
    intro st
    simp only [pass2]
    by_cases hseen : v ∈ st.seen
    · rw [if_pos hseen]
      rw [ih st]
      constructor
      · rintro ⟨w, hw, hws, hwh⟩
        exact ⟨w, by simp [hw], hws, hwh⟩
      · rintro ⟨w, hw, hws, hwh⟩
        rcases List.mem_cons.mp hw with rfl | hw
        · exact absurd hseen hws
        · exact ⟨w, hw, hws, hwh⟩
    · rw [if_neg hseen]
      rcases hh : homes v st.defs with _ | ⟨ix, rest⟩
      · simp only
        constructor
        · intro _
          exact ⟨v, by simp, hseen, hh⟩
        · intro _
          exact ⟨.invalid, rfl⟩
      · rcases rest with _ | ⟨ix2, rest2⟩
        · simp only
          rw [ih _]
          simp only
          constructor
          · rintro ⟨w, hw, hws, hwh⟩
            exact ⟨w, by simp [hw], hws, hwh⟩
          · rintro ⟨w, hw, hws, hwh⟩
            rcases List.mem_cons.mp hw with rfl | hw
            · rw [hh] at hwh
              cases hwh
            · exact ⟨w, hw, hws, hwh⟩
        · simp only
          rw [ih _]
          constructor
          · rintro ⟨w, hw, hws, hwh⟩
            exact ⟨w, by simp [hw], hws, hwh⟩
          · rintro ⟨w, hw, hws, hwh⟩
            rcases List.mem_cons.mp hw with rfl | hw
            · rw [hh] at hwh
              cases hwh
            · exact ⟨w, hw, hws, hwh⟩

theorem fillSubarray_error_iff (sa : SA) (g : Grid) :
    (∃ e, fillSubarray sa g = .error e) ↔
    (∃ e, pass1 sa (List.range' 1 9) ⟨g, 0, [], []⟩ = .error e) ∨
    (∃ st, pass1 sa (List.range' 1 9) ⟨g, 0, [], []⟩ = .ok st ∧
      ∃ v ∈ List.range' 1 9, v ∉ st.seen ∧ homes v st.defs = []) := by
  unfold fillSubarray
  rcases hp : pass1 sa (List.range' 1 9) ⟨g, 0, [], []⟩ with e | st
  · simp only
    constructor
    · intro _
      exact Or.inl ⟨e, rfl⟩
    · intro _
      exact ⟨e, rfl⟩
  · simp only
    rw [pass2_error_iff sa _ st]
    constructor
    · intro hex
      exact Or.inr ⟨st, rfl, hex⟩
    · rintro (⟨e, he⟩ | ⟨st', hst', hex⟩)
      · cases he
      · cases hst'
        exact hex

/-! ## Render/parse round trip helpers (claim C8) -/

theorem renderCell_digit (v : ℕ) (h1 : 1 ≤ v) (h9 : v ≤ 9) :
    (renderCell v ∈ zeroChars ++ digitChars) ∧ renderCell v ∉ zeroChars ∧
    (renderCell v).toNat - 48 = v := by
  interval_cases v <;> exact ⟨by decide, by decide, by decide⟩

theorem parse_map_render (vals : List ℕ) (h : ∀ v ∈ vals, 1 ≤ v ∧ v ≤ 9) :
    ((vals.map renderCell).filter (fun c => decide (c ∈ zeroChars ++ digitChars))).map
      (fun c => if c ∈ zeroChars then 0 else c.toNat - 48) = vals := by
  induction vals with
  | nil => rfl
  | cons v vs ih =>
    have hv := h v (by simp)
    obtain ⟨hmem, hnz, htn⟩ := renderCell_digit v hv.1 hv.2
    have ihvs := ih (fun w hw => h w (by simp [hw]))
    simp only [List.map_cons, List.filter_cons]
    rw [if_pos (by simpa using hmem)]
    simp only [List.map_cons, if_neg hnz, htn]
    rw [ihvs]

theorem parseLine_render (vals : List ℕ) (h9 : vals.length = 9)
    (h : ∀ v ∈ vals, 1 ≤ v ∧ v ≤ 9) :
    parseLine (vals.map renderCell) = some vals := by
  unfold parseLine
  simp only
  rw [parse_map_render vals h]
  rw [if_pos h9]

theorem mapM_render (rows : List (List ℕ))
    (h : ∀ r ∈ rows, r.length = 9 ∧ ∀ v ∈ r, 1 ≤ v ∧ v ≤ 9) :
    (rows.map (fun r => r.map renderCell)).mapM parseLine = some rows := by
  induction rows with
  | nil => rfl
  | cons r rs ih =>
    have hr := h r (by simp)
    have ihrs := ih (fun t ht => h t (by simp [ht]))
    simp only [List.map_cons, List.mapM_cons]
    rw [parseLine_render r hr.1 hr.2, ihrs]
    rfl

theorem render_eq_map (g : Grid) (hwf : WF g) :
    render g = g.map (fun r => r.map renderCell) := by
  obtain ⟨hlen, hrows⟩ := hwf
  unfold render
  apply List.ext_getElem (by simp [hlen])
  intro k hk1 hk2
  simp only [List.getElem_map, List.getElem_range']
  have hklen : k < List.length g := by simp at hk2; omega
  have hrl : (g.getD k []).length = 9 :=
    getD_row_length g k (fun r hr => (hrows r hr).1) hklen
  have hcell : ∀ j, cell g (1 + 1 * k) j = (g.getD k []).getD (j - 1) 0 := by
    intro j
    unfold cell
    congr 2
    omega
  calc (List.range' 1 9).map (fun j => renderCell (cell g (1 + 1 * k) j))
      = (List.range' 1 9).map (fun j => renderCell ((g.getD k []).getD (j - 1) 0)) := by
        apply List.map_congr_left
        intro j _
        rw [hcell j]
    _ = ((List.range' 1 9).map (fun j => (g.getD k []).getD (j - 1) 0)).map renderCell := by
        rw [List.map_map]
        rfl
    _ = (g.getD k []).map renderCell := by rw [map_getD_range' _ hrl]
    _ = g[k].map renderCell := by rw [List.getD_eq_getElem g [] hklen]

/-! ## invalidFullGrid has no valid completion -/

theorem invalidFullGrid_unsat : ∀ s : Grid, ¬ Completion invalidFullGrid s := by
  rintro s ⟨hwf, hext, hfill, hval⟩
  have h11 : cell s 1 1 = 2 := by
    have h := hext 1 1 (by omega) (by omega) (by omega) (by omega) (by decide)
    rw [h]
    decide
  have h12 : cell s 1 2 = 2 := by
    have h := hext 1 2 (by omega) (by omega) (by omega) (by omega) (by decide)
    rw [h]
    decide
  rw [isValidE, if_pos hwf] at hval
  injection hval with hvb
  unfold validB at hvb
  rw [Bool.and_eq_true, Bool.and_eq_true] at hvb
  have hrow1 : unitValid [] (subVals s (.row 1)) = true :=
    List.all_eq_true.mp hvb.1.1 1 (by decide)
  have hsv : subVals s (SA.row 1) =
      [cell s 1 1, cell s 1 2, cell s 1 3, cell s 1 4, cell s 1 5,
       cell s 1 6, cell s 1 7, cell s 1 8, cell s 1 9] := rfl
  rw [hsv, h11, h12] at hrow1
  simp [unitValid] at hrow1

/-! ## Claim theorems -/

set_option maxRecDepth 100000

/-- Claim C1 counterexample: the claim says that for an input grid with no
valid completion the top-level search returns an empty solution set and the
Contradiction never surfaces.  `invalidFullGrid` (a filled grid with two 2s
in row 1) has no valid completion, yet `dynamic_solve` raises `Invalid`,
and the module top level (lines 281-289 of solver.py) has no try/except:
the exception reaches the caller unhandled.  The fuel 1 equals
`(81 - fillcount) + 1`, the proven sufficient recursion bound, so this is
the value of the unbounded Python recursion. -/
theorem c1_counterexample :
    dynamicSolve 1 invalidFullGrid = .error .invalid ∧
    ∀ s : Grid, ¬ Completion invalidFullGrid s :=
  ⟨by decide, invalidFullGrid_unsat⟩

/-- Claim C1, amended: for every well-formed input grid with no valid
completion, the top-level search either returns an empty solution set or
fails with an uncaught exception; it never returns a non-empty set.  (The
conversion of the outermost Contradiction into an empty set that the
original claim describes does not exist in the code: the module top level
calls `dynamic_solve` with no handler.) -/
theorem c1_amended (g : Grid) (hwf : WF g) (hunsat : ∀ s : Grid, ¬ Completion g s)
    (fuel : ℕ) :
    dynamicSolve fuel g = .ok ∅ ∨ ∃ e, dynamicSolve fuel g = .error e := by
  rcases hds : dynamicSolve fuel g with e | S
  · exact Or.inr ⟨e, rfl⟩
  · left
    have hempty : S = ∅ := by
      rw [Finset.eq_empty_iff_forall_not_mem]
      intro s hs
      obtain ⟨w1, w2, w3, w4⟩ := dynamicSolve_sound fuel g S hwf hds s hs
      exact hunsat s ⟨w1, w4, w3, by rw [isValidE, if_pos w1, w2]⟩
    rw [hempty]

/-- Claim C1 witness: the amended claim instantiated at the concrete
unsatisfiable grid `invalidFullGrid` with fuel 1. -/
theorem c1_witness :
    dynamicSolve 1 invalidFullGrid = .ok ∅ ∨
    ∃ e, dynamicSolve 1 invalidFullGrid = .error e :=
  c1_amended invalidFullGrid (by decide) invalidFullGrid_unsat 1

/-- Claim C2 (code bug): the claim says the minimum-candidate selection
loop picks the first empty cell of smallest candidate-set size and
completes without fault whenever no pair cell exists.  In the source
(line 256) the loop compares `len(expand_possibilities) > p`, an `int`
against a `set`, which raises `TypeError` on the second iteration.
`band3Grid` is a valid propagation fixpoint whose 27 empty cells all have
3 candidates, so the scan finds no pair and enters the faulty loop:
`dynamic_solve` raises `TypeError` instead of selecting a branch cell.
The fuel 28 equals `(81 - fillcount) + 1`, the proven sufficient bound. -/
theorem c2_bug : dynamicSolve 28 band3Grid = .error .typeError := by decide

/-- Claim C3 counterexample: the claim says a unit-level `set(index, value)`
on an occupied cell fails and never silently overwrites.  In the source
`SubArray.__setitem__` (lines 21-23) has no check: writing 3 through the
Row-1 view at index 1 of a grid whose cell (1,1) holds 5 succeeds and
silently replaces the 5. -/
theorem c3_counterexample :
    cell g35 1 1 = 5 ∧ subSet g35 (SA.row 1) 1 3 ≠ g35 ∧
    cell (subSet g35 (SA.row 1) 1 3) 1 1 = 3 := by
  refine ⟨by decide, by decide, by decide⟩

/-- Claim C3, amended: write-once is enforced only at grid level:
`Sudoku.__setitem__` asserts the target cell is zero and fails with
`AssertionError` on an occupied cell, while unit-level
`SubArray.__setitem__` writes unconditionally and can silently overwrite. -/
theorem c3_amended (g : Grid) (i j v : ℕ) (hocc : cell g i j ≠ 0) :
    sudokuSet g i j v = .error .assertError := by
  rw [sudokuSet, if_neg hocc]

/-- Claim C3 witness: the amended claim at the concrete grid `g35` whose
cell (1,1) holds 5. -/
theorem c3_witness : sudokuSet g35 1 1 3 = .error .assertError :=
  c3_amended g35 1 1 3 (by decide)

/-- Claim C4 counterexample: the claim says `fill_unit` returns the count
of cells it filled.  On `c4Grid`, `fill_subarray` over row 1 returns 2 but
fills only ONE cell: the captured candidate sets make cell (1,6) the only
home of both 6 and 7, so the hidden-single loop writes 6 into (1,6) and
then overwrites it with 7 (through the unchecked `SubArray.__setitem__`),
incrementing `filled` both times; the fill count rises by only 1 and the
placed 6 is lost. -/
theorem c4_counterexample :
    fillSubarray (SA.row 1) c4Grid = .ok (c4Grid', 2) ∧
    fillcount c4Grid' = fillcount c4Grid + 1 ∧ cell c4Grid' 1 6 = 7 := by
  refine ⟨by decide, by decide, by decide⟩

/-- Claim C4, amended: `fill_unit` raises exactly when its index pass
raises, or, the index pass succeeding, some value 1-9 not in the seen set
has no home among the captured candidate sets of the deferred indices;
every error it raises is `Invalid` (never an assertion failure); and when
it returns normally it returns the number of placement operations
performed, which bounds the increase of the fill count from above but may
exceed the number of distinct cells filled (a deferred cell can be
written twice). -/
theorem c4_amended (sa : SA) (g : Grid) :
    ((∃ e, fillSubarray sa g = .error e) ↔
      (∃ e, pass1 sa (List.range' 1 9) ⟨g, 0, [], []⟩ = .error e) ∨
      (∃ st, pass1 sa (List.range' 1 9) ⟨g, 0, [], []⟩ = .ok st ∧
        ∃ v ∈ List.range' 1 9, v ∉ st.seen ∧ homes v st.defs = [])) ∧
    (∀ e, fillSubarray sa g = .error e → e = .invalid) ∧
    (∀ g' n, fillSubarray sa g = .ok (g', n) →
      fillcount g ≤ fillcount g' ∧ fillcount g' ≤ fillcount g + n) := by
  refine ⟨fillSubarray_error_iff sa g, fun e he => fillSubarray_error sa g e he, ?_⟩
  intro g' n h
  obtain ⟨h1, h2, _, _⟩ := fillSubarray_basic sa g g' n h
  exact ⟨h1, h2⟩

/-- Claim C4 witness: the amended claim's fill-count bound instantiated at
row 1 of `c4Grid`, where the returned count 2 strictly exceeds the actual
fill-count increase of 1. -/
theorem c4_witness :
    fillcount c4Grid ≤ fillcount c4Grid' ∧ fillcount c4Grid' ≤ fillcount c4Grid + 2 :=
  (c4_amended (SA.row 1) c4Grid).2.2 c4Grid' 2 (by decide)

/-- Claim C5: every Grid in a solution set returned by `dynamic_solve` is
valid (`is_valid()` returns True) and completely filled
(`fillcount() = 81`). -/
theorem c5_solutions_valid (fuel : ℕ) (g : Grid) (S : Finset Grid) (hwf : WF g)
    (h : dynamicSolve fuel g = .ok S) :
    ∀ s ∈ S, isValidE s = .ok true ∧ fillcount s = 81 := by
  intro s hs
  obtain ⟨w1, w2, w3, _⟩ := dynamicSolve_sound fuel g S hwf h s hs
  exact ⟨by rw [isValidE, if_pos w1, w2], w3⟩

/-- Claim C5 witness: the claim instantiated at the solved grid
`fullGrid`, whose solution set is the singleton containing it. -/
theorem c5_witness : isValidE fullGrid = .ok true ∧ fillcount fullGrid = 81 :=
  c5_solutions_valid 1 fullGrid {fullGrid} (by decide) (by decide) fullGrid
    (Finset.mem_singleton_self fullGrid)

/-- Claim C6: `simple_fill` is idempotent at fixpoint: when it returns
(its final round having filled zero cells), running it again on the
resulting grid fills zero additional cells and leaves the grid
unchanged. -/
theorem c6_simpleFill_idempotent (g g' : Grid) (k : ℕ)
    (h : simpleFill g = .ok (g', k)) : simpleFill g' = .ok (g', 0) := by
  have m4 := (simpleFill_basic g g' k h).2.2.2
  unfold simpleFill simpleFillAux
  rw [m4]
  simp

/-- Claim C6 witness: the claim instantiated at the already-solved
`fullGrid`, on which `simple_fill` returns having filled 0 cells. -/
theorem c6_witness : simpleFill fullGrid = .ok (fullGrid, 0) :=
  c6_simpleFill_idempotent fullGrid fullGrid 0 (by decide)

/-- Claim C7: no two Grids in a returned solution set are cell-by-cell
identical: the accumulator is a set under cell-content equality, so two
members that agree on every cell are the same element. -/
theorem c7_solutions_distinct (fuel : ℕ) (g : Grid) (S : Finset Grid) (hwf : WF g)
    (h : dynamicSolve fuel g = .ok S) :
    ∀ s ∈ S, ∀ t ∈ S,
      (∀ i ∈ List.range' 1 9, ∀ j ∈ List.range' 1 9, cell s i j = cell t i j) →
      s = t := by
  intro s hs t ht hc
  obtain ⟨ws, _, _, _⟩ := dynamicSolve_sound fuel g S hwf h s hs
  obtain ⟨wt, _, _, _⟩ := dynamicSolve_sound fuel g S hwf h t ht
  exact grid_ext s t ws wt hc

/-- Claim C7 witness: the claim instantiated at the singleton solution set
of `fullGrid`. -/
theorem c7_witness : fullGrid = fullGrid :=
  c7_solutions_distinct 1 fullGrid {fullGrid} (by decide) (by decide)
    fullGrid (Finset.mem_singleton_self fullGrid)
    fullGrid (Finset.mem_singleton_self fullGrid)
    (fun _ _ _ _ => rfl)

/-- Claim C8: rendering a completely filled well-formed Grid to its 9
lines of 9 characters and reparsing them through the input contract
(`from_strs`) yields the original grid. -/
theorem c8_roundtrip (g : Grid) (hwf : WF g) (hfull : fillcount g = 81) :
    fromStrs (render g) = some g := by
  have hpos := rows_all_pos g hwf hfull
  have hcomb : ∀ r ∈ g, r.length = 9 ∧ ∀ v ∈ r, 1 ≤ v ∧ v ≤ 9 := by
    intro r hr
    refine ⟨(hwf.2 r hr).1, ?_⟩
    intro v hv
    have := (hwf.2 r hr).2 v hv
    have := hpos r hr v hv
    omega
  unfold fromStrs
  rw [render_eq_map g hwf, mapM_render g hcomb]
  simp [hwf.1]

/-- Claim C8 witness: the round trip on the concrete solved `fullGrid`. -/
theorem c8_witness : fromStrs (render fullGrid) = some fullGrid :=
  c8_roundtrip fullGrid (by decide) (by decide)

/-- Claim C9: `dynamic_solve` always terminates with recursion depth
bounded by the number of empty cells: `fillcount` never exceeds 81, and
any two fuels of at least `(81 - fillcount g) + 1` (one call per empty
cell plus the initial call) produce identical results, because every
recursive call is made on a clone whose fill count is strictly larger. -/
theorem c9_depth_bound (g : Grid) (hwf : WF g) :
    fillcount g ≤ 81 ∧
    ∀ fone ftwo : ℕ, 81 - fillcount g + 1 ≤ fone → 81 - fillcount g + 1 ≤ ftwo →
      dynamicSolve fone g = dynamicSolve ftwo g := by
  have hle := fillcount_le_81 g hwf
  refine ⟨hle, ?_⟩
  intro fone ftwo h1 h2
  exact dynamicSolve_stable fone g ftwo hwf (by omega) (by omega)

/-- Claim C9 witness: the depth bound at the solved `fullGrid` (no empty
cells, so fuel 1 and fuel 37 agree). -/
theorem c9_witness : dynamicSolve 1 fullGrid = dynamicSolve 37 fullGrid :=
  (c9_depth_bound fullGrid (by decide)).2 1 37 (by decide) (by decide)

/-- Claim C10: after `simple_fill` returns normally (propagation
fixpoint), every empty cell whose freshly computed candidate set is
non-empty has at least 2 candidates, so the `assert len > 1` in the
branch-cell scan of `dynamic_solve` never fails. -/
theorem c10_no_singleton_at_fixpoint (g g₁ : Grid) (k : ℕ)
    (h : simpleFill g = .ok (g₁, k)) :
    ∀ i ∈ List.range' 1 9, ∀ j ∈ List.range' 1 9,
      cell g₁ i j = 0 → cands g₁ i j ≠ [] → 2 ≤ (cands g₁ i j).length := by
  intro i hi j hj hz _
  have m4 := (simpleFill_basic g g₁ k h).2.2.2
  obtain ⟨_, _, _, hforall⟩ := singlePass_basic g₁ g₁ 0 m4
  obtain ⟨_, hall⟩ := hforall rfl
  have hrow := hall (SA.row i) (row_mem_unitList i hi)
  obtain ⟨_, _, _, hzero⟩ := fillSubarray_basic (SA.row i) g₁ g₁ 0 hrow
  obtain ⟨_, hc⟩ := hzero rfl
  exact hc j hj hz

/-- Claim C10 witness: the fixpoint grid `band3Grid` (rows 1-3 empty),
where cell (1,1) is empty with candidate set `[1,4,7]` of size 3. -/
theorem c10_witness : 2 ≤ (cands band3Grid 1 1).length :=
  c10_no_singleton_at_fixpoint band3Grid band3Grid 0 (by decide)
    1 (by decide) 1 (by decide) (by decide) (by decide)
